import Mathlib

/-!
Verification of the foldiff core against its natural-language specification.

The development shallowly embeds the relevant parts of the Rust sources
(`libfoldiff/src/zstddiff.rs`, `diffing.rs`, `applying.rs`, `common.rs`,
`manifest.rs`, `upgrade.rs`) as executable Lean definitions:

* byte streams are `List Nat` (each entry a byte value),
* machine integers are `Nat` (wrap-around never occurs on the modelled paths;
  `u64::MAX` is written explicitly where the code uses it as a sentinel),
* the IEEE-754 binary64 arithmetic of `zstddiff.rs` is modelled exactly on `ℚ`
  by a round-to-nearest-ties-to-even function `fl` (unbounded exponent, which
  agrees with binary64 on the magnitudes that occur: no overflow, no
  subnormals),
* the zstd compressor/decompressor and the msgpack serializer are external
  libraries, so they enter as function parameters together with the round-trip
  hypotheses the code relies on,
* fallible operations return `Option`.
-/

set_option maxRecDepth 4000

namespace Foldiff

/-! ## Byte-stream helpers -/

/-- Big-endian encoding of a `u64` (`u64::to_be_bytes`), as eight byte values. -/
def be64 (n : ℕ) : List ℕ :=
  [n / 2 ^ 56 % 256, n / 2 ^ 48 % 256, n / 2 ^ 40 % 256, n / 2 ^ 32 % 256,
   n / 2 ^ 24 % 256, n / 2 ^ 16 % 256, n / 2 ^ 8 % 256, n % 256]

/-- Big-endian decoding of a byte list (`u64::from_be_bytes`). -/
def beRead (l : List ℕ) : ℕ := l.foldl (fun acc b => acc * 256 + b) 0

/-- Model of `read_exact`: take exactly `n` bytes off the front of a stream, failing at
end-of-stream like `std::io::Read::read_exact`. -/
def readExact (n : ℕ) (s : List ℕ) : Option (List ℕ × List ℕ) :=
  if n ≤ s.length then some (s.take n, s.drop n) else none

theorem be64_length (n : ℕ) : (be64 n).length = 8 := rfl

theorem beRead_be64 (n : ℕ) (h : n < 2 ^ 64) : beRead (be64 n) = n := by
  simp only [be64, beRead, List.foldl]
  omega

theorem readExact_append (a b : List ℕ) : readExact a.length (a ++ b) = some (a, b) := by
  simp [readExact]

/-! ## Exact model of the binary64 arithmetic used by `zstddiff.rs`

`fl x` is the binary64 value nearest to the real number `x` (ties to even),
with an unbounded exponent range; on the magnitudes produced by the chunk
geometry this coincides with IEEE-754 binary64. -/

/-- Fuel-driven base-2 logarithm on `ℕ` (structural recursion so that the
kernel can evaluate it). -/
def natLog2F : ℕ → ℕ → ℕ
  | 0, _ => 0
  | f + 1, n => if 2 ≤ n then natLog2F f (n / 2) + 1 else 0

/-- The value `natLog2 n` is `⌊log₂ n⌋` for `n ≥ 1`. -/
def natLog2 (n : ℕ) : ℕ := natLog2F n n

/-- Round a rational to the nearest integer, ties to even. -/
def roundHalfEven (q : ℚ) : ℤ :=
  if q - ⌊q⌋ < 1 / 2 then ⌊q⌋
  else if 1 / 2 < q - ⌊q⌋ then ⌊q⌋ + 1
  else if Even ⌊q⌋ then ⌊q⌋ else ⌊q⌋ + 1

/-- The binade exponent of a positive rational: the unique `e` with
`2 ^ e ≤ x < 2 ^ (e + 1)`. -/
def flExpPos (x : ℚ) : ℤ :=
  if (2 : ℚ) ^ ((natLog2 x.num.toNat : ℤ) - (natLog2 x.den : ℤ)) ≤ x
  then (natLog2 x.num.toNat : ℤ) - (natLog2 x.den : ℤ)
  else (natLog2 x.num.toNat : ℤ) - (natLog2 x.den : ℤ) - 1

/-- Round a positive rational to 53 significant bits, nearest, ties to even. -/
def flPos (x : ℚ) : ℚ :=
  let e := flExpPos x
  (roundHalfEven (x * (2 : ℚ) ^ (52 - e)) : ℚ) * (2 : ℚ) ^ (e - 52)

/-- The binary64 value nearest to `x` (ties to even, unbounded exponent). -/
def fl (x : ℚ) : ℚ :=
  if x = 0 then 0 else if x < 0 then -flPos (-x) else flPos x

theorem natLog2F_spec : ∀ f n, 0 < n → n ≤ f →
    2 ^ natLog2F f n ≤ n ∧ n < 2 ^ (natLog2F f n + 1) := by
  intro f
  induction f with
  | zero => intro n hn hf; omega
  | succ f ih =>
    intro n hn hf
    rw [natLog2F]
    by_cases h2 : 2 ≤ n
    · simp only [h2, if_true]
      have hhalf : 0 < n / 2 := by omega
      have hfuel : n / 2 ≤ f := by omega
      obtain ⟨hlo, hhi⟩ := ih (n / 2) hhalf hfuel
      constructor
      · have : 2 ^ (natLog2F f (n / 2) + 1) = 2 * 2 ^ natLog2F f (n / 2) := by ring
        rw [this]; omega
      · have : 2 ^ (natLog2F f (n / 2) + 1 + 1) = 2 * 2 ^ (natLog2F f (n / 2) + 1) := by ring
        rw [this]; omega
    · simp only [h2, if_false]
      omega

theorem natLog2_spec (n : ℕ) (hn : 0 < n) :
    2 ^ natLog2 n ≤ n ∧ n < 2 ^ (natLog2 n + 1) :=
  natLog2F_spec n n hn le_rfl

theorem roundHalfEven_dist (q : ℚ) : |(roundHalfEven q : ℚ) - q| ≤ 1 / 2 := by
  unfold roundHalfEven
  have h1 : (⌊q⌋ : ℚ) ≤ q := Int.floor_le q
  have h2 : q < ⌊q⌋ + 1 := Int.lt_floor_add_one q
  by_cases hlt : q - ⌊q⌋ < 1 / 2
  · simp only [hlt, if_true]
    rw [abs_le]; constructor <;> linarith
  · simp only [hlt, if_false]
    by_cases hgt : 1 / 2 < q - ⌊q⌋
    · simp only [hgt, if_true]
      rw [abs_le]; push_cast; constructor <;> linarith
    · simp only [hgt, if_false]
      have heq : q - ⌊q⌋ = 1 / 2 := by linarith
      by_cases hev : Even (⌊q⌋ : ℤ)
      · simp only [hev, if_true]
        rw [abs_le]; constructor <;> linarith
      · simp only [hev, if_false]
        rw [abs_le]; push_cast; constructor <;> linarith

theorem roundHalfEven_intCast (k : ℤ) : roundHalfEven (k : ℚ) = k := by
  unfold roundHalfEven
  simp

theorem ratLog2_bounds (a b : ℕ) (ha : 0 < a) (hb : 0 < b) :
    (2 : ℚ) ^ ((natLog2 a : ℤ) - natLog2 b - 1) < (a : ℚ) / b ∧
    (a : ℚ) / b < (2 : ℚ) ^ ((natLog2 a : ℤ) - natLog2 b + 1) := by
  obtain ⟨hla, hla2⟩ := natLog2_spec a ha
  obtain ⟨hlb, hlb2⟩ := natLog2_spec b hb
  have hbQ : (0 : ℚ) < (b : ℚ) := by positivity
  constructor
  · rw [lt_div_iff₀ hbQ]
    have h1 : ((2 : ℚ) ^ (natLog2 a : ℕ)) ≤ (a : ℚ) := by exact_mod_cast hla
    have h2 : (b : ℚ) < (2 : ℚ) ^ (natLog2 b + 1 : ℕ) := by exact_mod_cast hlb2
    have h3 : (2 : ℚ) ^ ((natLog2 a : ℤ) - natLog2 b - 1) * (2 : ℚ) ^ (natLog2 b + 1 : ℕ) =
        (2 : ℚ) ^ (natLog2 a : ℕ) := by
      rw [← zpow_natCast (2 : ℚ) (natLog2 b + 1), ← zpow_add₀ (by norm_num : (2:ℚ) ≠ 0),
        ← zpow_natCast (2 : ℚ) (natLog2 a)]
      congr 1
      push_cast
      ring
    calc (2 : ℚ) ^ ((natLog2 a : ℤ) - natLog2 b - 1) * (b : ℚ)
        < (2 : ℚ) ^ ((natLog2 a : ℤ) - natLog2 b - 1) * (2 : ℚ) ^ (natLog2 b + 1 : ℕ) := by
          apply mul_lt_mul_of_pos_left h2 (by positivity)
      _ = (2 : ℚ) ^ (natLog2 a : ℕ) := h3
      _ ≤ (a : ℚ) := h1
  · rw [div_lt_iff₀ hbQ]
    have h1 : (a : ℚ) < (2 : ℚ) ^ (natLog2 a + 1 : ℕ) := by exact_mod_cast hla2
    have h2 : ((2 : ℚ) ^ (natLog2 b : ℕ)) ≤ (b : ℚ) := by exact_mod_cast hlb
    have h3 : (2 : ℚ) ^ ((natLog2 a : ℤ) - natLog2 b + 1) * (2 : ℚ) ^ (natLog2 b : ℕ) =
        (2 : ℚ) ^ (natLog2 a + 1 : ℕ) := by
      rw [← zpow_natCast (2 : ℚ) (natLog2 b), ← zpow_add₀ (by norm_num : (2:ℚ) ≠ 0),
        ← zpow_natCast (2 : ℚ) (natLog2 a + 1)]
      congr 1
      push_cast
      ring
    calc (a : ℚ) < (2 : ℚ) ^ (natLog2 a + 1 : ℕ) := h1
      _ = (2 : ℚ) ^ ((natLog2 a : ℤ) - natLog2 b + 1) * (2 : ℚ) ^ (natLog2 b : ℕ) := h3.symm
      _ ≤ (2 : ℚ) ^ ((natLog2 a : ℤ) - natLog2 b + 1) * (b : ℚ) := by
          apply mul_le_mul_of_nonneg_left h2 (by positivity)

theorem flExpPos_spec (x : ℚ) (hx : 0 < x) :
    (2 : ℚ) ^ flExpPos x ≤ x ∧ x < (2 : ℚ) ^ (flExpPos x + 1) := by
  have hnum : 0 < x.num := Rat.num_pos.mpr hx
  have hden : 0 < x.den := x.pos
  have ha : 0 < x.num.toNat := by omega
  have hcast : ((x.num.toNat : ℕ) : ℚ) = (x.num : ℚ) := by
    exact_mod_cast congrArg (fun z : ℤ => (z : ℚ)) (Int.toNat_of_nonneg hnum.le)
  have hxab : x = (x.num.toNat : ℚ) / (x.den : ℚ) := by
    rw [hcast]; exact (Rat.num_div_den x).symm
  obtain ⟨hlo, hup⟩ := ratLog2_bounds x.num.toNat x.den ha hden
  rw [← hxab] at hlo hup
  unfold flExpPos
  by_cases hcase : (2 : ℚ) ^ ((natLog2 x.num.toNat : ℤ) - (natLog2 x.den : ℤ)) ≤ x
  · rw [if_pos hcase]
    exact ⟨hcase, hup⟩
  · rw [if_neg hcase]
    refine ⟨le_of_lt hlo, ?_⟩
    have hx2 : x < (2 : ℚ) ^ ((natLog2 x.num.toNat : ℤ) - natLog2 x.den) := lt_of_not_le hcase
    have hrw : (natLog2 x.num.toNat : ℤ) - natLog2 x.den - 1 + 1 =
        (natLog2 x.num.toNat : ℤ) - natLog2 x.den := by ring
    rw [hrw]
    exact hx2

theorem flPos_err (x : ℚ) (hx : 0 < x) : |flPos x - x| ≤ x / 2 ^ 53 := by
  obtain ⟨he1, he2⟩ := flExpPos_spec x hx
  have hxm : x * (2 : ℚ) ^ (52 - flExpPos x) * (2 : ℚ) ^ (flExpPos x - 52) = x := by
    rw [mul_assoc, ← zpow_add₀ (by norm_num : (2:ℚ) ≠ 0)]
    norm_num
  have hd := roundHalfEven_dist (x * (2 : ℚ) ^ (52 - flExpPos x))
  have hpow : (0 : ℚ) < (2 : ℚ) ^ (flExpPos x - 52) := by positivity
  have hsub : flPos x - x =
      ((roundHalfEven (x * (2 : ℚ) ^ (52 - flExpPos x)) : ℚ) - x * (2 : ℚ) ^ (52 - flExpPos x)) *
        (2 : ℚ) ^ (flExpPos x - 52) := by
    unfold flPos
    rw [sub_mul, hxm]
  rw [hsub, abs_mul, abs_of_pos hpow]
  have hstep : |(roundHalfEven (x * (2 : ℚ) ^ (52 - flExpPos x)) : ℚ) -
      x * (2 : ℚ) ^ (52 - flExpPos x)| * (2 : ℚ) ^ (flExpPos x - 52)
      ≤ (1 / 2) * (2 : ℚ) ^ (flExpPos x - 52) := by
    apply mul_le_mul_of_nonneg_right hd (le_of_lt hpow)
  refine le_trans hstep ?_
  have h1 : (1 / 2 : ℚ) * (2 : ℚ) ^ (flExpPos x - 52) = (2 : ℚ) ^ flExpPos x / 2 ^ 53 := by
    have hz : (2:ℚ) ^ (flExpPos x - 52) = (2:ℚ) ^ flExpPos x / (2:ℚ) ^ (52 : ℤ) := by
      rw [zpow_sub₀ (by norm_num : (2:ℚ) ≠ 0)]
    rw [hz, show ((2:ℚ) ^ (52 : ℤ)) = ((2:ℚ) ^ (52:ℕ)) by
      rw [show (52:ℤ) = ((52:ℕ):ℤ) from rfl, zpow_natCast]]
    ring
  rw [h1]
  linarith [he1]

theorem flPos_lower (x : ℚ) (hx : 0 < x) : x - x / 2 ^ 53 ≤ flPos x := by
  have h := flPos_err x hx
  rw [abs_le] at h
  linarith

theorem flPos_upper (x : ℚ) (hx : 0 < x) : flPos x ≤ x + x / 2 ^ 53 := by
  have h := flPos_err x hx
  rw [abs_le] at h
  linarith

theorem flPos_pos (x : ℚ) (hx : 0 < x) : 0 < flPos x := by
  have h := flPos_lower x hx
  have : x / 2 ^ 53 < x := by
    rw [div_lt_iff₀ (by norm_num : (0:ℚ) < 2 ^ 53)]
    nlinarith
  linarith

theorem fl_zero : fl 0 = 0 := by simp [fl]

theorem fl_err (x : ℚ) (hx : 0 < x) : |fl x - x| ≤ x / 2 ^ 53 := by
  rw [fl, if_neg (ne_of_gt hx), if_neg (not_lt.mpr hx.le)]
  exact flPos_err x hx

theorem fl_pos (x : ℚ) (hx : 0 < x) : 0 < fl x := by
  rw [fl, if_neg (ne_of_gt hx), if_neg (not_lt.mpr hx.le)]
  exact flPos_pos x hx

theorem fl_nonneg (x : ℚ) (hx : 0 ≤ x) : 0 ≤ fl x := by
  rcases eq_or_lt_of_le hx with h | h
  · rw [← h, fl_zero]
  · exact (fl_pos x h).le

/-- Exactness: `fl` is exact on `k · 2^z` for `0 < k ≤ 2^53`: such values are binary64
representable, so rounding does not move them. -/
theorem flPos_exact (k : ℕ) (z : ℤ) (hk : 0 < k) (hk53 : k ≤ 2 ^ 53) :
    flPos ((k : ℚ) * (2 : ℚ) ^ z) = (k : ℚ) * (2 : ℚ) ^ z := by
  set x : ℚ := (k : ℚ) * (2 : ℚ) ^ z with hx_def
  have hxpos : 0 < x := by positivity
  obtain ⟨he1, he2⟩ := flExpPos_spec x hxpos
  set e : ℤ := flExpPos x with he_def
  -- the exponent satisfies e ≤ z + 53
  have hxle : x ≤ (2 : ℚ) ^ (z + 53) := by
    rw [hx_def, zpow_add₀ (by norm_num : (2:ℚ) ≠ 0)]
    have : ((k : ℚ)) ≤ (2 : ℚ) ^ (53 : ℤ) := by
      rw [show ((2:ℚ) ^ (53:ℤ)) = ((2 ^ 53 : ℕ) : ℚ) by push_cast; norm_num]
      exact_mod_cast hk53
    calc (k : ℚ) * (2 : ℚ) ^ z ≤ (2 : ℚ) ^ (53 : ℤ) * (2 : ℚ) ^ z := by
          apply mul_le_mul_of_nonneg_right this (by positivity)
      _ = (2 : ℚ) ^ z * (2 : ℚ) ^ (53 : ℤ) := by ring
  have hze : (2 : ℚ) ^ e ≤ (2 : ℚ) ^ (z + 53) := le_trans he1 hxle
  have he53 : e ≤ z + 53 := by
    by_contra hcon
    push_neg at hcon
    have : (2 : ℚ) ^ (z + 53) < (2 : ℚ) ^ e := by
      apply zpow_lt_zpow_right₀ (by norm_num : (1:ℚ) < 2) hcon
    linarith
  -- the mantissa is an integer
  have hm : ∃ j : ℤ, x * (2 : ℚ) ^ (52 - e) = (j : ℚ) := by
    rcases le_or_lt e (z + 52) with hle | hlt
    · refine ⟨(k : ℤ) * 2 ^ (z + 52 - e).toNat, ?_⟩
      rw [hx_def, mul_assoc, ← zpow_add₀ (by norm_num : (2:ℚ) ≠ 0)]
      rw [show z + (52 - e) = ((z + 52 - e).toNat : ℤ) by omega, zpow_natCast]
      push_cast
      ring
    · -- e = z + 53, which forces k = 2^53 and a mantissa of exactly 2^52
      have he_eq : e = z + 53 := by omega
      have hklow : (2 : ℚ) ^ (z + 53) ≤ x := by rw [← he_eq]; exact he1
      have hk_eq : k = 2 ^ 53 := by
        have hmul : ((2 ^ 53 : ℕ) : ℚ) * (2 : ℚ) ^ z ≤ (k : ℚ) * (2 : ℚ) ^ z := by
          calc ((2 ^ 53 : ℕ) : ℚ) * (2 : ℚ) ^ z = (2 : ℚ) ^ (z + 53) := by
                rw [zpow_add₀ (by norm_num : (2:ℚ) ≠ 0),
                  show ((2 ^ 53 : ℕ) : ℚ) = (2:ℚ) ^ (53 : ℤ) by
                    rw [show (53:ℤ) = ((53:ℕ):ℤ) from rfl, zpow_natCast]
                    push_cast
                    ring]
                ring
            _ ≤ x := hklow
            _ = (k : ℚ) * (2 : ℚ) ^ z := hx_def
        have hp : (0:ℚ) < (2:ℚ) ^ z := by positivity
        have hmono : ((2 ^ 53 : ℕ) : ℚ) ≤ (k : ℚ) := le_of_mul_le_mul_right hmul hp
        have h2 : (2 ^ 53 : ℕ) ≤ k := by exact_mod_cast hmono
        omega
      refine ⟨2 ^ 52, ?_⟩
      rw [hx_def, hk_eq, he_eq]
      rw [show ((2 ^ 53 : ℕ) : ℚ) = (2:ℚ) ^ (53 : ℤ) by
        rw [show (53:ℤ) = ((53:ℕ):ℤ) from rfl, zpow_natCast]
        push_cast
        ring]
      rw [mul_assoc, ← zpow_add₀ (by norm_num : (2:ℚ) ≠ 0),
        ← zpow_add₀ (by norm_num : (2:ℚ) ≠ 0),
        show (53 + (z + (52 - (z + 53))) : ℤ) = ((52:ℕ):ℤ) by ring, zpow_natCast]
      push_cast
      ring
  obtain ⟨j, hj⟩ := hm
  show (roundHalfEven (x * (2:ℚ) ^ (52 - e)) : ℚ) * (2:ℚ) ^ (e - 52) = x
  rw [hj, roundHalfEven_intCast, ← hj]
  rw [mul_assoc, ← zpow_add₀ (by norm_num : (2:ℚ) ≠ 0)]
  rw [show (52 - e + (e - 52) : ℤ) = 0 by ring, zpow_zero, mul_one]

/-- Identity: `fl` is the identity on natural numbers up to `2^53` (they are
representable in binary64). -/
theorem fl_natCast (n : ℕ) (hn : n ≤ 2 ^ 53) : fl (n : ℚ) = (n : ℚ) := by
  rcases Nat.eq_zero_or_pos n with h | h
  · subst h; simpa using fl_zero
  · have hpos : (0 : ℚ) < (n : ℚ) := by exact_mod_cast h
    rw [fl, if_neg (ne_of_gt hpos), if_neg (not_lt.mpr hpos.le)]
    have := flPos_exact n 0 h hn
    simpa using this

/-! ## `zstddiff.rs` — the chunked delta codec

The zstd compressor itself is external; it enters as a parameter
`comp dict data` (compress `data` against the reference window `dict`) and
`dec dict blob` (the corresponding decode, `Option` for decoder failure).
All floating-point steps of the chunk geometry are modelled with `fl`. -/

namespace Zstddiff

/-- Rust: `const CHUNK_SIZE: f64 = ((1u64 << 31)/2) as f64;` (the value is `2^30`,
exactly representable). -/
def CHUNK_SIZE : ℚ := ((1 <<< 31) / 2 : ℕ)

/-- The `f64` chunk count of `calc_chunk_num`:
`(l1 as f64 / CHUNK_SIZE).ceil()` (binary64 division then exact ceil). -/
def calc_chunk_num_f (l1 : ℕ) : ℚ := ((⌈fl (fl (l1 : ℚ) / CHUNK_SIZE)⌉ : ℤ) : ℚ)

/-- The chunk count as written to the wire (`num_chunks as u64`). -/
def calc_chunk_num (l1 : ℕ) : ℕ := ⌊calc_chunk_num_f l1⌋₊

/-- Model of `calc_chunks`: start offsets `(i as f64 * (len / num_chunks_f)) as u64`
for `i` in `0..num_chunks_f as u64`, every arithmetic step in binary64. -/
def calc_chunks (num_chunks_f len : ℚ) : List ℕ :=
  (List.range ⌊num_chunks_f⌋₊).map
    (fun (i : ℕ) => ⌊fl (fl (i : ℚ) * fl (len / num_chunks_f))⌋₊)

/-- Cut `l` into the consecutive ranges `[sᵢ, sᵢ₊₁)` determined by the start
offsets, the last range ending at `len` (the `peek().unwrap_or(len)` of the
source). -/
def chunkSlices : List ℕ → ℕ → List ℕ → List (List ℕ)
  | [], _, _ => []
  | [s1], len, l => [(l.take len).drop s1]
  | s1 :: s2 :: rest, len, l => ((l.take s2).drop s1) :: chunkSlices (s2 :: rest) len l

/-- Model of `zstddiff::diff`: writes the chunk count, then per chunk an 8-byte
big-endian length followed by the compressed payload of the new-side range
against the old-side range. -/
def diff (comp : List ℕ → List ℕ → List ℕ) (old new : List ℕ) : List ℕ :=
  let ncf := calc_chunk_num_f old.length
  let dicts := chunkSlices (calc_chunks ncf (fl (old.length : ℚ))) old.length old
  let segs := chunkSlices (calc_chunks ncf (fl (new.length : ℚ))) new.length new
  be64 ⌊ncf⌋₊ ++
    (List.zipWith (fun d s => be64 (comp d s).length ++ comp d s) dicts segs).flatten

/-- The chunk loop of `zstddiff::apply`: for each old-side range, read the
8-byte blob length, decode the blob against the range, append the output and
count its bytes. -/
def applyChunks (dec : List ℕ → List ℕ → Option (List ℕ)) :
    List (List ℕ) → List ℕ → Option (List ℕ × ℕ)
  | [], _ => some ([], 0)
  | d :: rest, s => do
    let (lenB, s1) ← readExact 8 s
    let (blob, s2) ← readExact (beRead lenB) s1
    let out ← dec d blob
    let (restOut, restWritten) ← applyChunks dec rest s2
    some (out ++ restOut, out.length + restWritten)

/-- Model of `zstddiff::apply`: reads the chunk count, recomputes the old-side chunk
geometry from `old_len`, decodes each blob in sequence; returns the bytes
written to `dest` and their count (the function's return value). -/
def apply (dec : List ℕ → List ℕ → Option (List ℕ)) (old diffBytes : List ℕ)
    (old_len : ℕ) : Option (List ℕ × ℕ) := do
  let (nB, s1) ← readExact 8 diffBytes
  let num_chunks := beRead nB
  let dicts := chunkSlices (calc_chunks (fl (num_chunks : ℚ)) (fl (old_len : ℚ))) old_len old
  applyChunks dec dicts s1

/-- A trivially invertible stand-in codec, used to evaluate the model at
concrete inputs (the chunk layer never inspects the payload bytes). -/
def idComp (dict data : List ℕ) : List ℕ := data

/-- Decoder inverse to `idComp`. -/
def idDec (dict blob : List ℕ) : Option (List ℕ) := some blob

end Zstddiff

/-! ### Evaluation helpers for the float model -/

theorem fl_of_pos (x : ℚ) (hx : 0 < x) : fl x = flPos x := by
  rw [fl, if_neg (ne_of_gt hx), if_neg (not_lt.mpr hx.le)]

theorem flExpPos_unique (x : ℚ) (e : ℤ) (hx : 0 < x)
    (h1 : (2 : ℚ) ^ e ≤ x) (h2 : x < (2 : ℚ) ^ (e + 1)) : flExpPos x = e := by
  obtain ⟨g1, g2⟩ := flExpPos_spec x hx
  by_contra hne
  rcases lt_or_gt_of_ne hne with hlt | hgt
  · have : (2 : ℚ) ^ (flExpPos x + 1) ≤ (2 : ℚ) ^ e := by
      apply zpow_le_zpow_right₀ (by norm_num : (1:ℚ) ≤ 2)
      omega
    linarith
  · have : (2 : ℚ) ^ (e + 1) ≤ (2 : ℚ) ^ flExpPos x := by
      apply zpow_le_zpow_right₀ (by norm_num : (1:ℚ) ≤ 2)
      omega
    linarith

theorem flPos_eval (x : ℚ) (e j : ℤ) (hx : 0 < x)
    (h1 : (2 : ℚ) ^ e ≤ x) (h2 : x < (2 : ℚ) ^ (e + 1))
    (hj : roundHalfEven (x * (2 : ℚ) ^ (52 - e)) = j) :
    flPos x = (j : ℚ) * (2 : ℚ) ^ (e - 52) := by
  have he := flExpPos_unique x e hx h1 h2
  show (roundHalfEven (x * (2 : ℚ) ^ (52 - flExpPos x)) : ℚ) * (2 : ℚ) ^ (flExpPos x - 52) = _
  rw [he, hj]

/-- Exactness on dyadic quotients: `fl` is exact on quotients `k / 2^m` with `k ≤ 2^53`. -/
theorem fl_exact_div_pow (k m : ℕ) (hk : 0 < k) (hk53 : k ≤ 2 ^ 53) :
    fl ((k : ℚ) / 2 ^ m) = (k : ℚ) / 2 ^ m := by
  have h : (k : ℚ) / 2 ^ m = (k : ℚ) * (2 : ℚ) ^ (-(m : ℤ)) := by
    rw [zpow_neg, zpow_natCast, div_eq_mul_inv]
  have hpos : (0 : ℚ) < (k : ℚ) / 2 ^ m := by positivity
  rw [h, fl_of_pos _ (by positivity), flPos_exact k (-(m : ℤ)) hk hk53]

section ZstddiffEval

theorem CHUNK_SIZE_eq : Zstddiff.CHUNK_SIZE = 2 ^ 30 := by
  rw [Zstddiff.CHUNK_SIZE]
  norm_num [Nat.shiftLeft_eq]

theorem calc_chunk_num_f_zero : Zstddiff.calc_chunk_num_f 0 = 0 := by
  rw [Zstddiff.calc_chunk_num_f]
  rw [show ((0:ℕ):ℚ) = 0 by norm_num, fl_zero, zero_div, fl_zero]
  norm_num

/-- An empty old stream yields a chunk count of zero (not one). -/
theorem calc_chunk_num_zero : Zstddiff.calc_chunk_num 0 = 0 := by
  rw [Zstddiff.calc_chunk_num, calc_chunk_num_f_zero]
  norm_num

theorem calc_chunk_num_pow30 : Zstddiff.calc_chunk_num (2 ^ 30) = 1 := by
  rw [Zstddiff.calc_chunk_num, Zstddiff.calc_chunk_num_f, CHUNK_SIZE_eq,
    fl_natCast (2 ^ 30) (by norm_num)]
  rw [show (((2 ^ 30 : ℕ) : ℚ)) / 2 ^ 30 = ((1 : ℕ) : ℚ) by push_cast; norm_num]
  rw [fl_natCast 1 (by norm_num)]
  norm_num

theorem calc_chunk_num_pow30_succ : Zstddiff.calc_chunk_num (2 ^ 30 + 1) = 2 := by
  rw [Zstddiff.calc_chunk_num, Zstddiff.calc_chunk_num_f, CHUNK_SIZE_eq,
    fl_natCast (2 ^ 30 + 1) (by norm_num)]
  rw [show (((2 ^ 30 + 1 : ℕ) : ℚ)) / 2 ^ 30 = ((2 ^ 30 + 1 : ℕ) : ℚ) / 2 ^ 30 from rfl]
  rw [fl_exact_div_pow (2 ^ 30 + 1) 30 (by norm_num) (by norm_num)]
  have hceil : ⌈((2 ^ 30 + 1 : ℕ) : ℚ) / 2 ^ 30⌉ = 2 := by
    rw [Int.ceil_eq_iff]
    push_cast
    norm_num
  rw [hceil]
  norm_num

theorem calc_chunk_num_14 : Zstddiff.calc_chunk_num (14 * 2 ^ 30) = 14 := by
  rw [Zstddiff.calc_chunk_num, Zstddiff.calc_chunk_num_f, CHUNK_SIZE_eq,
    fl_natCast (14 * 2 ^ 30) (by norm_num)]
  rw [show (((14 * 2 ^ 30 : ℕ) : ℚ)) / 2 ^ 30 = ((14 : ℕ) : ℚ) by push_cast; ring]
  rw [fl_natCast 14 (by norm_num)]
  have hceil : ⌈((14 : ℕ) : ℚ)⌉ = 14 := by push_cast; norm_num
  rw [hceil]
  norm_num

theorem fl_7 : fl (7 : ℚ) = 7 := by
  rw [show (7:ℚ) = ((7:ℕ):ℚ) by norm_num, fl_natCast 7 (by norm_num)]

theorem fl_14 : fl (14 : ℚ) = 14 := by
  rw [show (14:ℚ) = ((14:ℕ):ℚ) by norm_num, fl_natCast 14 (by norm_num)]

theorem fl_122 : fl (122 : ℚ) = 122 := by
  rw [show (122:ℚ) = ((122:ℕ):ℚ) by norm_num, fl_natCast 122 (by norm_num)]

/-- Binary64 rounds `122/14` down: the nearest double is
`4905706736957147 / 2^49`, slightly below `61/7`. -/
theorem fl_122_div_14 : fl ((122 : ℚ) / 14) = 4905706736957147 / 2 ^ 49 := by
  rw [fl_of_pos _ (by norm_num)]
  have hj : roundHalfEven (((122 : ℚ) / 14) * (2 : ℚ) ^ ((52 : ℤ) - 3)) = 4905706736957147 := by
    have hq : ((122 : ℚ) / 14) * (2 : ℚ) ^ ((52 : ℤ) - 3) = 34339947158700032 / 7 := by
      norm_num
    rw [roundHalfEven, hq]
    have hfl : ⌊(34339947158700032 / 7 : ℚ)⌋ = 4905706736957147 := by
      rw [Int.floor_eq_iff]
      norm_num
    rw [hfl]
    norm_num
  rw [flPos_eval ((122 : ℚ) / 14) 3 4905706736957147 (by norm_num) (by norm_num) (by norm_num) hj]
  norm_num

/-- Multiplying back by 7 in binary64 lands just below 61:
`fl(7 · fl(122/14)) = 8584986789675007 / 2^47 < 61`. -/
theorem fl_7_mul_c : fl ((7 : ℚ) * (4905706736957147 / 2 ^ 49)) = 8584986789675007 / 2 ^ 47 := by
  rw [fl_of_pos _ (by norm_num)]
  have hj : roundHalfEven (((7 : ℚ) * (4905706736957147 / 2 ^ 49)) * (2 : ℚ) ^ ((52 : ℤ) - 5)) =
      8584986789675007 := by
    have hq : ((7 : ℚ) * (4905706736957147 / 2 ^ 49)) * (2 : ℚ) ^ ((52 : ℤ) - 5) =
        34339947158700029 / 4 := by
      norm_num
    rw [roundHalfEven, hq]
    have hfl : ⌊(34339947158700029 / 4 : ℚ)⌋ = 8584986789675007 := by
      rw [Int.floor_eq_iff]
      norm_num
    rw [hfl]
    norm_num
  rw [flPos_eval _ 5 8584986789675007 (by norm_num) (by norm_num) (by norm_num) hj]
  norm_num

/-- The `i = 7` start offset for 14 chunks over a 122-byte side, as computed
by the code's binary64 arithmetic: 60 (exact arithmetic gives 61). -/
theorem chunk_start_7_14_122 : ⌊fl (fl (7 : ℚ) * fl ((122 : ℚ) / 14))⌋₊ = 60 := by
  rw [fl_7, fl_122_div_14, fl_7_mul_c]
  rw [Nat.floor_eq_iff (by norm_num)]
  norm_num

theorem calc_chunks_getElem (N L i : ℕ) (hN53 : N ≤ 2 ^ 53) (hL53 : L ≤ 2 ^ 53)
    (hi : i < N) :
    (Zstddiff.calc_chunks (fl (N : ℚ)) (fl (L : ℚ)))[i]? =
      some ⌊fl (fl (i : ℚ) * fl ((L : ℚ) / (N : ℚ)))⌋₊ := by
  rw [Zstddiff.calc_chunks, fl_natCast N hN53, fl_natCast L hL53, Nat.floor_natCast]
  rw [List.getElem?_map, List.getElem?_range hi]
  rfl

theorem calc_chunks_length (N L : ℕ) (hN53 : N ≤ 2 ^ 53) :
    (Zstddiff.calc_chunks (fl (N : ℚ)) (fl (L : ℚ))).length = N := by
  rw [Zstddiff.calc_chunks, fl_natCast N hN53, Nat.floor_natCast, List.length_map,
    List.length_range]

/-- The binary64 start offset differs from the exact `⌊i·L/N⌋` by at most one,
whenever `N ≤ 2^53` and `L ≤ 2^51`. -/
theorem chunk_start_near_floor (N L i : ℕ) (hN : 0 < N) (hN53 : N ≤ 2 ^ 53)
    (hL : L ≤ 2 ^ 51) (hi : i < N) :
    ⌊fl (fl (i : ℚ) * fl ((L : ℚ) / (N : ℚ)))⌋₊ ≤ i * L / N + 1 ∧
    i * L / N ≤ ⌊fl (fl (i : ℚ) * fl ((L : ℚ) / (N : ℚ)))⌋₊ + 1 := by
  rcases Nat.eq_zero_or_pos L with hL0 | hLpos
  · subst hL0
    rw [show ((0:ℕ):ℚ) = 0 by norm_num, zero_div, fl_zero, mul_zero, fl_zero]
    simp
  rcases Nat.eq_zero_or_pos i with hi0 | hipos
  · subst hi0
    rw [show ((0:ℕ):ℚ) = 0 by norm_num, fl_zero, zero_mul, fl_zero]
    simp
  have hNQ : (0 : ℚ) < (N : ℚ) := by exact_mod_cast hN
  have hLQ : (0 : ℚ) < (L : ℚ) := by exact_mod_cast hLpos
  have hiQ : (0 : ℚ) < (i : ℚ) := by exact_mod_cast hipos
  have hq : (0 : ℚ) < (L : ℚ) / (N : ℚ) := by positivity
  set q : ℚ := (L : ℚ) / (N : ℚ) with hq_def
  have hfl_i : fl (i : ℚ) = (i : ℚ) := fl_natCast i (le_trans hi.le hN53)
  rw [hfl_i]
  set c : ℚ := fl q with hc_def
  have hc_err := fl_err q hq
  rw [abs_le] at hc_err
  have hc_lo : q - q / 2 ^ 53 ≤ c := by linarith [hc_err.1]
  have hc_up : c ≤ q + q / 2 ^ 53 := by linarith [hc_err.2]
  have hc_pos : 0 < c := by
    have : q / 2 ^ 53 < q := by
      rw [div_lt_iff₀ (by norm_num : (0:ℚ) < 2 ^ 53)]
      nlinarith
    linarith
  have hic_pos : 0 < (i : ℚ) * c := by positivity
  set p : ℚ := fl ((i : ℚ) * c) with hp_def
  have hp_err := fl_err ((i : ℚ) * c) hic_pos
  rw [abs_le] at hp_err
  have hp_lo : (i : ℚ) * c - ((i : ℚ) * c) / 2 ^ 53 ≤ p := by linarith [hp_err.1]
  have hp_up : p ≤ (i : ℚ) * c + ((i : ℚ) * c) / 2 ^ 53 := by linarith [hp_err.2]
  have hp_nonneg : 0 ≤ p := fl_nonneg _ hic_pos.le
  set t : ℚ := (i : ℚ) * q with ht_def
  have ht_pos : 0 < t := by positivity
  have ht_lt_L : t < (L : ℚ) := by
    rw [ht_def, hq_def]
    rw [mul_div_assoc']
    rw [div_lt_iff₀ hNQ]
    have hiN : (i : ℚ) < (N : ℚ) := by exact_mod_cast hi
    nlinarith
  have ht_lt : t < 2 ^ 51 := by
    have : (L : ℚ) ≤ 2 ^ 51 := by exact_mod_cast hL
    linarith
  -- |p - t| < 1
  have hclose_up : p < t + 1 := by
    nlinarith [ht_pos, hq.le, hiQ.le, hc_pos.le]
  have hclose_lo : t - 1 < p := by
    nlinarith [ht_pos, hq.le, hiQ.le, hc_pos.le]
  -- translate to natural floors
  have ht_cast : t = ((i * L : ℕ) : ℚ) / (N : ℚ) := by
    rw [ht_def, hq_def]
    push_cast
    ring
  have ht_floor : ⌊t⌋₊ = i * L / N := by
    rw [ht_cast, Nat.floor_div_nat, Nat.floor_natCast]
  constructor
  · have h1 : ⌊p⌋₊ ≤ ⌊t + 1⌋₊ := Nat.floor_le_floor hclose_up.le
    rw [Nat.floor_add_one ht_pos.le, ht_floor] at h1
    exact h1
  · have h1 : ⌊t⌋₊ ≤ ⌊p + 1⌋₊ := Nat.floor_le_floor (by linarith)
    rw [Nat.floor_add_one hp_nonneg, ht_floor] at h1
    exact h1

end ZstddiffEval

/-! ## `common.rs` — constants and error aggregation -/

/-- Rust: `pub const MAGIC_BYTES: [u8; 4] = *b"FLDF";` -/
def MAGIC_BYTES : List ℕ := [70, 76, 68, 70]

/-- Rust: `pub const VERSION_NUMBER_1_0_0_R: [u8; 4] = [1, 0, 0, b'r'];` -/
def VERSION_NUMBER_1_0_0_R : List ℕ := [1, 0, 0, 114]

/-- Rust: `pub const VERSION_NUMBER_1_1_0: [u8; 4] = [0, 1, 1, 0];` -/
def VERSION_NUMBER_1_1_0 : List ℕ := [0, 1, 1, 0]

/-- The value `u64::MAX`, the sentinel index of `DuplicatedFile`. -/
def U64_MAX : ℕ := 2 ^ 64 - 1

/-- Model of `Vec::join("\n")` over the formatted error list. -/
def joinNL : List String → String
  | [] => ""
  | [e] => e
  | e :: rest => e ++ "\n" ++ joinNL rest

/-- The `aggregate_errors!` macro of `common.rs`: with an empty list it does
nothing (`none`); otherwise it bails with
`"Failed with multiple errors:\n"` followed by the newline-joined messages —
the prefix is attached unconditionally, whatever the list's length. -/
def aggregate_errors (errs : List String) : Option String :=
  if errs.isEmpty then none
  else some ("Failed with multiple errors:\n" ++ joinNL errs)

/-- Modelled from the spec (for comparison with `aggregate_errors`):
"Single-error case is reported unadorned; multi-error case is prefixed
\"Failed with multiple errors:\"." -/
def aggregate_errors_spec (errs : List String) : Option String :=
  match errs with
  | [] => none
  | [e] => some e
  | _ => some ("Failed with multiple errors:\n" ++ joinNL errs)

/-! ## `manifest.rs` — container header and manifest readers

The msgpack deserializer is external: it enters as `parse : List ℕ →
Option (M × ℕ)` returning the decoded manifest and the number of bytes it
consumed, with `ver m` the manifest's internal `version` field. The zstd
frame decoder of `read_110` is `dec : List ℕ → Option (List ℕ)`. -/

namespace Manifest

/-- Model of `DiffManifest::read_100r`: deserialize a raw msgpack manifest from the
stream, then `ensure!` its internal version equals `[1,0,0,'r']`. -/
def read_100r {M : Type} (parse : List ℕ → Option (M × ℕ)) (ver : M → List ℕ)
    (s : List ℕ) : Option (M × List ℕ) :=
  match parse s with
  | none => none
  | some (m, k) =>
    if ver m = VERSION_NUMBER_1_0_0_R then some (m, s.drop k) else none

/-- Model of `DiffManifest::read_110`: read the 8-byte big-endian compressed length,
decode that many bytes as a zstd frame, deserialize the manifest from the
decoded bytes, and leave the stream positioned after the frame. -/
def read_110 {M : Type} (parse : List ℕ → Option (M × ℕ))
    (dec : List ℕ → Option (List ℕ)) (s : List ℕ) : Option (M × List ℕ) := do
  let (lenB, s1) ← readExact 8 s
  let (c, s2) ← readExact (beRead lenB) s1
  let raw ← dec c
  let (m, _) ← parse raw
  some (m, s2)

/-- Model of `DiffManifest::verify_and_read_ver`: check the magic, read the 4-byte
version tag; first byte `0` demands exactly `[0,1,1,0]`, a non-zero first
byte rewinds 4 bytes and reports the legacy version. Returns the version and
the stream at the resulting position. -/
def verify_and_read_ver (s : List ℕ) : Option (List ℕ × List ℕ) :=
  match readExact 4 s with
  | none => none
  | some (magic, s1) =>
    if magic = MAGIC_BYTES then
      match readExact 4 s1 with
      | none => none
      | some (v, s2) =>
        if v.headI = 0 then
          if v = VERSION_NUMBER_1_1_0 then some (v, s2) else none
        else
          some (VERSION_NUMBER_1_0_0_R, s1)
    else none

/-- Model of `DiffManifest::read_from`. -/
def read_from {M : Type} (parse : List ℕ → Option (M × ℕ)) (ver : M → List ℕ)
    (dec : List ℕ → Option (List ℕ)) (s : List ℕ) : Option (M × List ℕ) := do
  let (v, s1) ← verify_and_read_ver s
  if v = VERSION_NUMBER_1_0_0_R then read_100r parse ver s1
  else read_110 parse dec s1

end Manifest

/-! ## `upgrade.rs` — v1.0.0-r → v1.1.0 -/

namespace Upgrade

/-- Model of `upgrade_100r_110`, acting on the source stream positioned just after the
magic (where `auto_upgrade`'s `verify_and_read_ver` left it after rewinding):
parse the legacy manifest to learn its byte length `k`, write magic, the
v1.1.0 tag, the 8-byte big-endian compressed length (backfilled), the
compressed manifest bytes `comp (s.take k)`, then copy the remaining blob
bytes verbatim. -/
def upgrade_100r_110 {M : Type} (parse : List ℕ → Option (M × ℕ)) (ver : M → List ℕ)
    (comp : List ℕ → List ℕ) (s : List ℕ) : Option (List ℕ) :=
  match parse s with
  | none => none
  | some (m, k) =>
    if ver m = VERSION_NUMBER_1_0_0_R then
      some (MAGIC_BYTES ++ VERSION_NUMBER_1_1_0 ++
        be64 (comp (s.take k)).length ++ comp (s.take k) ++ s.drop k)
    else none

end Upgrade

/-! ## `diffing.rs` — scanning and manifest generation -/

namespace Diffing

/-- The values of `DiffingDiff::files` (`DiffingFileData`). The mime type is
recorded on group creation but never read by classification; the model keeps
the field and leaves it empty. -/
structure DiffingFileData where
  paths_old : List String
  paths_new : List String
  inferred_mime : Option String
deriving DecidableEq

/-- Structure `NewFile` of `manifest.rs`. -/
structure NewFile where
  hash : ℕ
  index : ℕ
  path : String
deriving DecidableEq

/-- Structure `DuplicatedFile` of `manifest.rs` (`idx = u64::MAX` means "none"). -/
structure DuplicatedFile where
  hash : ℕ
  idx : ℕ
  old_paths : List String
  new_paths : List String
deriving DecidableEq

/-- Structure `PatchedFile` of `manifest.rs`. -/
structure PatchedFile where
  old_hash : ℕ
  new_hash : ℕ
  index : ℕ
  path : String
deriving DecidableEq

/-- Structure `DiffManifest` of `manifest.rs` (the decoded manifest record). -/
structure DiffManifest where
  version : List ℕ
  untouched_files : List (ℕ × String)
  deleted_files : List (ℕ × String)
  new_files : List NewFile
  duplicated_files : List DuplicatedFile
  patched_files : List PatchedFile
deriving DecidableEq

/-- Model of `DiffManifest::default()`: the invalid null version and five empty
arrays. -/
def defaultManifest : DiffManifest := ⟨[0, 0, 0, 0], [], [], [], [], []⟩

/-- The mutable outputs of `generate_manifest`: the manifest being built plus
`self.blobs_new` / `self.blobs_patch`. -/
structure BuildState where
  manifest : DiffManifest
  blobs_new : List String
  blobs_patch : List String
deriving DecidableEq

/-- Which arm of the classification fired (named after the manifest list the
entry was pushed to; `omitted` is the silent skip in step 4). -/
inductive FileCat
  | untouched
  | duplicated
  | patched
  | newFile
  | deleted
  | omitted
deriving DecidableEq

/-- Lookup in a `BTreeMap<Utf8PathBuf, u64>` (`file_paths_old` / `file_paths_new`). -/
def lookupPath : List (String × ℕ) → String → Option ℕ
  | [], _ => none
  | (q, h) :: rest, p => if p = q then some h else lookupPath rest p

/-- The loop body of `generate_manifest` for one content group, returning the
updated builder state and the chosen category (`none` is the final
`bail!("All potential scan entry cases should have been handled ...")`).
`path_to_string` is the identity here (the `\` → `/` rewrite only happens on
Windows). -/
def classify_step (fpo fpn : List (String × ℕ)) (st : BuildState) (hash : ℕ)
    (entry : DiffingFileData) : Option (BuildState × FileCat) :=
  -- step 1: are we unchanged?
  if entry.paths_old.length = 1 ∧ entry.paths_new.length = 1 ∧
      entry.paths_new.headI = entry.paths_old.headI then
    some ({ st with manifest := { st.manifest with
      untouched_files := st.manifest.untouched_files ++ [(hash, entry.paths_old.headI)] } },
      .untouched)
  -- step 2: are we a duplicate? (also handles renames)
  else if (entry.paths_new.length = 1 ∧ entry.paths_old.length = 1) ∨
      1 < entry.paths_new.length ∨ 1 < entry.paths_old.length then
    -- "are we *also* a new file?" — the fresh index is allocated from
    -- blobs_patch (diffing.rs:184-186)
    some ({ st with
      manifest := { st.manifest with
        duplicated_files := st.manifest.duplicated_files ++
          [{ hash := hash,
             idx := if entry.paths_old.isEmpty then st.blobs_patch.length else U64_MAX,
             old_paths := entry.paths_old, new_paths := entry.paths_new }] },
      blobs_patch := if entry.paths_old.isEmpty then
          st.blobs_patch ++ [entry.paths_new.headI] else st.blobs_patch },
      .duplicated)
  -- step 3: do we appear new?
  else if entry.paths_old.isEmpty then
    match lookupPath fpo entry.paths_new.headI with
    | some old_hash =>
      some ({ st with
        manifest := { st.manifest with
          patched_files := st.manifest.patched_files ++
            [{ old_hash := old_hash, new_hash := hash,
               index := st.blobs_patch.length, path := entry.paths_new.headI }] },
        blobs_patch := st.blobs_patch ++ [entry.paths_new.headI] }, .patched)
    | none =>
      some ({ st with
        manifest := { st.manifest with
          new_files := st.manifest.new_files ++
            [{ hash := hash, index := st.blobs_new.length,
               path := entry.paths_new.headI }] },
        blobs_new := st.blobs_new ++ [entry.paths_new.headI] }, .newFile)
  -- step 4: do we appear deleted?
  else if entry.paths_new.isEmpty then
    if lookupPath fpn entry.paths_old.headI = none then
      some ({ st with manifest := { st.manifest with
        deleted_files := st.manifest.deleted_files ++ [(hash, entry.paths_old.headI)] } },
        .deleted)
    else
      some (st, .omitted)
  else
    none

/-- The `for (hash, entry) in &self.files` loop of `generate_manifest` (a
`BTreeMap` iterates its entries in ascending key order, so `files` is a
hash-sorted association list). -/
def classify_groups (fpo fpn : List (String × ℕ)) :
    List (ℕ × DiffingFileData) → BuildState → Option BuildState
  | [], st => some st
  | (h, e) :: rest, st =>
    match classify_step fpo fpn st h e with
    | none => none
    | some (st', _) => classify_groups fpo fpn rest st'

/-- The scan-time working state of `DiffingDiff` (roots omitted: paths are
kept relative). -/
structure ScanState where
  files : List (ℕ × DiffingFileData)
  file_paths_old : List (String × ℕ)
  file_paths_new : List (String × ℕ)
deriving DecidableEq

def initScan : ScanState := ⟨[], [], []⟩

/-- Append the path to the side of an existing group (`state_paths.push`). -/
def insertPath (in_new : Bool) (p : String) (g : DiffingFileData) : DiffingFileData :=
  if in_new then { g with paths_new := g.paths_new ++ [p] }
  else { g with paths_old := g.paths_old ++ [p] }

/-- A freshly created group holding a single path on one side. -/
def newGroup (in_new : Bool) (p : String) : DiffingFileData :=
  if in_new then ⟨[], [p], none⟩ else ⟨[p], [], none⟩

/-- Update of the `BTreeMap<u64, DiffingFileData>`: push onto the existing group for
the hash, or insert a fresh group, keeping the list sorted by key. -/
def insertGroup (in_new : Bool) (p : String) (h : ℕ) :
    List (ℕ × DiffingFileData) → List (ℕ × DiffingFileData)
  | [] => [(h, newGroup in_new p)]
  | (h', g) :: rest =>
    if h = h' then (h', insertPath in_new p g) :: rest
    else if h < h' then (h, newGroup in_new p) :: (h', g) :: rest
    else (h', g) :: insertGroup in_new p h rest

/-- Model of `DiffingDiff::add_file`: reject a path already present on its side, hash
the file (`fs path` is the content hash of the file at `path`), and insert
into the group map and the per-side path map. -/
def add_file (fs : String → ℕ) (in_new : Bool) (path : String) (st : ScanState) :
    Option ScanState :=
  if (lookupPath (if in_new then st.file_paths_new else st.file_paths_old) path).isSome then
    none
  else
    if in_new then
      some { st with files := insertGroup in_new path (fs path) st.files,
                     file_paths_new := (path, fs path) :: st.file_paths_new }
    else
      some { st with files := insertGroup in_new path (fs path) st.files,
                     file_paths_old := (path, fs path) :: st.file_paths_old }

/-- The two scan passes, as the sequence of `add_file` calls they make. -/
def scan_fold (fs : String → ℕ) : List (Bool × String) → ScanState → Option ScanState
  | [], st => some st
  | op :: rest, st =>
    match add_file fs op.1 op.2 st with
    | none => none
    | some st' => scan_fold fs rest st'

/-- Model of `generate_manifest` over a scanned state: classify every content group in
hash order starting from the default (empty) manifest. -/
def generate_manifest (st : ScanState) : Option BuildState :=
  classify_groups st.file_paths_old st.file_paths_new st.files ⟨defaultManifest, [], []⟩

end Diffing

/-! ## `applying.rs` — the duplicated-file task -/

namespace Applying

open Diffing

/-- The old-path verification loop of the duplicated task (applying.rs:99-111).
`fs p` is the content hash of the old file at `p` (`none` when opening or
hashing fails, in which case `handle_res_parit!` yields the context error).
On a hash mismatch the source builds
`Some(anyhow!("Old file {p} was not as expected."))` but a stray statement
semicolon discards it, so the closure falls through and returns `None` for
every readable file. -/
def dup_check_errors (fs : String → Option ℕ) (d : DuplicatedFile) : List String :=
  d.old_paths.filterMap (fun p =>
    match fs p with
    | none => some ("Failed to open old file " ++ p ++ " to verify hash")
    | some _h => none)

/-- Modelled from the spec (for comparison with `dup_check_errors`): "Verify
every old-path hashes to `hash` (fail if not)". -/
def dup_check_errors_spec (fs : String → Option ℕ) (d : DuplicatedFile) : List String :=
  d.old_paths.filterMap (fun p =>
    match fs p with
    | none => some ("Failed to open old file " ++ p ++ " to verify hash")
    | some h =>
      if h ≠ d.hash then some ("Old file " ++ p ++ " was not as expected.") else none)

/-- The copy source used for the `skip(1)` copies of the `idx != u64::MAX`
branch (applying.rs:174): `self.old_root.join(&d.old_paths[0])`. `none`
models the index-out-of-bounds panic on an empty `old_paths`. -/
def dup_copy_source (d : DuplicatedFile) : Option String := d.old_paths.head?

/-- The blob slot resolution of the same branch (applying.rs:138):
`self.blobs_new.get(d.idx as usize)` — the *new-file* blob offsets, not the
patch ones. -/
def dup_blob_lookup (blobs_new : List ℕ) (d : DuplicatedFile) : Option ℕ :=
  blobs_new[d.idx]?

end Applying

/-! ## Supporting lemmas for the claim theorems -/

theorem headI_take_four (l : List ℕ) (hl : l ≠ []) : (l.take 4).headI = l.headI := by
  cases l with
  | nil => exact absurd rfl hl
  | cons a t => simp

/-- Full characterization of a successful `verify_and_read_ver`. -/
theorem verify_and_read_ver_some (s v s1 : List ℕ)
    (h : Manifest.verify_and_read_ver s = some (v, s1)) :
    s.take 4 = MAGIC_BYTES ∧ 8 ≤ s.length ∧
    (((s.drop 4).headI = 0 ∧ v = VERSION_NUMBER_1_1_0 ∧
        (s.drop 4).take 4 = VERSION_NUMBER_1_1_0 ∧ s1 = s.drop 8) ∨
     ((s.drop 4).headI ≠ 0 ∧ v = VERSION_NUMBER_1_0_0_R ∧ s1 = s.drop 4)) := by
  unfold Manifest.verify_and_read_ver readExact at h
  by_cases h4 : 4 ≤ s.length
  · rw [if_pos h4] at h
    dsimp only at h
    by_cases hm : s.take 4 = MAGIC_BYTES
    · simp only [hm, if_pos] at h
      by_cases h8 : 4 ≤ (s.drop 4).length
      · rw [if_pos h8] at h
        dsimp only at h
        have hne : s.drop 4 ≠ [] := by
          intro hnil
          rw [hnil] at h8
          simp at h8
        have hlen : 8 ≤ s.length := by
          simp only [List.length_drop] at h8
          omega
        by_cases hz : ((s.drop 4).take 4).headI = 0
        · rw [if_pos hz] at h
          by_cases hv : (s.drop 4).take 4 = VERSION_NUMBER_1_1_0
          · rw [if_pos hv] at h
            simp only [Option.some.injEq, Prod.mk.injEq] at h
            obtain ⟨hveq, hseq⟩ := h
            refine ⟨hm, hlen, Or.inl ⟨?_, hveq.symm.trans hv, hv, ?_⟩⟩
            · rw [← headI_take_four _ hne]
              exact hz
            · rw [← hseq, List.drop_drop]
          · rw [if_neg hv] at h
            exact absurd h (by simp)
        · rw [if_neg hz] at h
          simp only [Option.some.injEq, Prod.mk.injEq] at h
          obtain ⟨hveq, hseq⟩ := h
          refine ⟨hm, hlen, Or.inr ⟨?_, hveq.symm, hseq.symm⟩⟩
          rw [← headI_take_four _ hne]
          exact hz
      · rw [if_neg h8] at h
        exact absurd h (by simp)
    · rw [if_neg hm] at h
      exact absurd h (by simp)
  · rw [if_neg h4] at h
    exact absurd h (by simp)

/-! ### Scan invariant and classification totality -/

namespace Diffing

/-- One classification step succeeds on every group carrying at least one
path (the four branches of `generate_manifest` are exhaustive there). -/
theorem classify_step_total (fpo fpn : List (String × ℕ)) (st : BuildState) (hash : ℕ)
    (entry : DiffingFileData)
    (h : 1 ≤ entry.paths_old.length + entry.paths_new.length) :
    (classify_step fpo fpn st hash entry).isSome := by
  unfold classify_step
  by_cases h1 : entry.paths_old.length = 1 ∧ entry.paths_new.length = 1 ∧
      entry.paths_new.headI = entry.paths_old.headI
  · rw [if_pos h1]; rfl
  · rw [if_neg h1]
    by_cases h2 : (entry.paths_new.length = 1 ∧ entry.paths_old.length = 1) ∨
        1 < entry.paths_new.length ∨ 1 < entry.paths_old.length
    · rw [if_pos h2]; rfl
    · rw [if_neg h2]
      by_cases h3 : entry.paths_old.isEmpty = true
      · rw [if_pos h3]
        cases lookupPath fpo entry.paths_new.headI <;> rfl
      · rw [if_neg h3]
        by_cases h4 : entry.paths_new.isEmpty = true
        · rw [if_pos h4]
          by_cases h5 : lookupPath fpn entry.paths_old.headI = none
          · rw [if_pos h5]; rfl
          · rw [if_neg h5]; rfl
        · rw [if_neg h4]
          exfalso
          rw [List.isEmpty_iff] at h3 h4
          have ho : entry.paths_old.length ≠ 0 := by
            intro hz
            exact h3 (List.length_eq_zero.mp hz)
          have hn : entry.paths_new.length ≠ 0 := by
            intro hz
            exact h4 (List.length_eq_zero.mp hz)
          push_neg at h2
          obtain ⟨h2a, h2b, h2c⟩ := h2
          omega

/-- Every group produced by scanning carries at least one path: group
creation installs one path, and later scans only append. -/
theorem insertGroup_nonempty (in_new : Bool) (p : String) (h : ℕ) :
    ∀ (files : List (ℕ × DiffingFileData)),
    (∀ x ∈ files, 1 ≤ x.2.paths_old.length + x.2.paths_new.length) →
    ∀ x ∈ insertGroup in_new p h files, 1 ≤ x.2.paths_old.length + x.2.paths_new.length := by
  intro files
  induction files with
  | nil =>
    intro _ x hx
    rw [insertGroup] at hx
    rcases List.mem_singleton.mp hx with rfl
    cases in_new <;> simp [newGroup]
  | cons hd rest ih =>
    intro hinv x hx
    obtain ⟨h', g⟩ := hd
    rw [insertGroup] at hx
    split_ifs at hx with he hlt
    · rcases List.mem_cons.mp hx with rfl | hx'
      · have := hinv (h', g) (List.mem_cons_self _ _)
        cases in_new <;> simp [insertPath] <;> simp at this <;> omega
      · exact hinv x (List.mem_cons_of_mem _ hx')
    · rcases List.mem_cons.mp hx with rfl | hx'
      · cases in_new <;> simp [newGroup]
      · exact hinv x hx'
    · rcases List.mem_cons.mp hx with rfl | hx'
      · exact hinv (h', g) (List.mem_cons_self _ _)
      · exact ih (fun y hy => hinv y (List.mem_cons_of_mem _ hy)) x hx'

theorem add_file_nonempty (fs : String → ℕ) (in_new : Bool) (path : String)
    (st st' : ScanState) (h : add_file fs in_new path st = some st')
    (hinv : ∀ x ∈ st.files, 1 ≤ x.2.paths_old.length + x.2.paths_new.length) :
    ∀ x ∈ st'.files, 1 ≤ x.2.paths_old.length + x.2.paths_new.length := by
  unfold add_file at h
  split_ifs at h with hdup hnew
  · cases h
    exact insertGroup_nonempty in_new path (fs path) st.files hinv
  · cases h
    exact insertGroup_nonempty in_new path (fs path) st.files hinv

theorem scan_fold_nonempty (fs : String → ℕ) :
    ∀ (ops : List (Bool × String)) (st st' : ScanState),
    scan_fold fs ops st = some st' →
    (∀ x ∈ st.files, 1 ≤ x.2.paths_old.length + x.2.paths_new.length) →
    ∀ x ∈ st'.files, 1 ≤ x.2.paths_old.length + x.2.paths_new.length := by
  intro ops
  induction ops with
  | nil =>
    intro st st' h hinv
    rw [scan_fold] at h
    cases h
    exact hinv
  | cons op rest ih =>
    intro st st' h hinv
    rw [scan_fold] at h
    cases ha : add_file fs op.1 op.2 st with
    | none => rw [ha] at h; exact absurd h (by simp)
    | some st1 =>
      rw [ha] at h
      exact ih st1 st' h (add_file_nonempty fs op.1 op.2 st st1 ha hinv)

theorem classify_groups_total (fpo fpn : List (String × ℕ)) :
    ∀ (files : List (ℕ × DiffingFileData)) (st : BuildState),
    (∀ x ∈ files, 1 ≤ x.2.paths_old.length + x.2.paths_new.length) →
    (classify_groups fpo fpn files st).isSome := by
  intro files
  induction files with
  | nil => intro st _; rfl
  | cons hd rest ih =>
    intro st hinv
    obtain ⟨h, e⟩ := hd
    rw [classify_groups]
    have hs := classify_step_total fpo fpn st h e (hinv (h, e) (List.mem_cons_self _ _))
    cases hc : classify_step fpo fpn st h e with
    | none => rw [hc] at hs; exact absurd hs (by simp)
    | some r =>
      obtain ⟨st', c⟩ := r
      exact ih st' (fun y hy => hinv y (List.mem_cons_of_mem _ hy))

end Diffing

/-! ## Claim theorems -/

/-- Claim C10. Classification is total on reachable states: every content group
built by scanning holds at least one path, the four classification branches
of `generate_manifest` cover all such shapes, and so the trailing
`bail!("... slipping through the cracks ...")` branch is never taken —
`generate_manifest` succeeds on every state the scan can produce. -/
theorem C10_classification_total (fs : String → ℕ) (ops : List (Bool × String))
    (st : Diffing.ScanState) (h : Diffing.scan_fold fs ops Diffing.initScan = some st) :
    (Diffing.generate_manifest st).isSome := by
  apply Diffing.classify_groups_total
  apply Diffing.scan_fold_nonempty fs ops Diffing.initScan st h
  intro x hx
  exact absurd hx (List.not_mem_nil x)

/-- Claim C10, witness: a two-file scan (one old file, one new file with the
same content hash) followed by successful manifest generation. -/
theorem C10_classification_total_witness :
    (Diffing.generate_manifest
      ⟨[(5, ⟨["a"], ["b"], none⟩)], [("a", 5)], [("b", 5)]⟩).isSome :=
  C10_classification_total (fun _ => 5) [(false, "a"), (true, "b")]
    ⟨[(5, ⟨["a"], ["b"], none⟩)], [("a", 5)], [("b", 5)]⟩ rfl

/-- Modelled from the spec (for comparison with `classify_step`): the
classification table of §4.5 —
`|old|=1 ∧ |new|=1 ∧ old[0]==new[0]` → UNTOUCHED;
`|old|+|new| > 2`, or `|old|=1 ∧ |new|=1 ∧ old[0]≠new[0]` → DUPLICATED;
`|old|=0 ∧ |new|=1` → PATCHED when the path exists old-side under a
different hash, else NEW; `|old|=1 ∧ |new|=0` → omitted when the path
exists new-side, else DELETED. -/
def spec_classify (fpo fpn : List (String × ℕ)) (hash : ℕ)
    (entry : Diffing.DiffingFileData) : Option Diffing.FileCat :=
  if entry.paths_old.length = 1 ∧ entry.paths_new.length = 1 ∧
      entry.paths_old.headI = entry.paths_new.headI then
    some .untouched
  else if 2 < entry.paths_old.length + entry.paths_new.length ∨
      (entry.paths_old.length = 1 ∧ entry.paths_new.length = 1 ∧
        entry.paths_old.headI ≠ entry.paths_new.headI) then
    some .duplicated
  else if entry.paths_old.length = 0 ∧ entry.paths_new.length = 1 then
    match Diffing.lookupPath fpo entry.paths_new.headI with
    | some h' => if h' ≠ hash then some .patched else some .newFile
    | none => some .newFile
  else if entry.paths_old.length = 1 ∧ entry.paths_new.length = 0 then
    if Diffing.lookupPath fpn entry.paths_old.headI ≠ none then some .omitted
    else some .deleted
  else none

/-- The spec table with the DUPLICATED condition the code actually uses:
`|old| > 1 ∨ |new| > 1 ∨ (|old| = 1 ∧ |new| = 1)` (reached only when the
UNTOUCHED arm failed, so the path-inequality is implicit). -/
def amended_table (fpo fpn : List (String × ℕ)) (hash : ℕ)
    (entry : Diffing.DiffingFileData) : Option Diffing.FileCat :=
  if entry.paths_old.length = 1 ∧ entry.paths_new.length = 1 ∧
      entry.paths_old.headI = entry.paths_new.headI then
    some .untouched
  else if 1 < entry.paths_old.length ∨ 1 < entry.paths_new.length ∨
      (entry.paths_old.length = 1 ∧ entry.paths_new.length = 1) then
    some .duplicated
  else if entry.paths_old.length = 0 ∧ entry.paths_new.length = 1 then
    match Diffing.lookupPath fpo entry.paths_new.headI with
    | some h' => if h' ≠ hash then some .patched else some .newFile
    | none => some .newFile
  else if entry.paths_old.length = 1 ∧ entry.paths_new.length = 0 then
    if Diffing.lookupPath fpn entry.paths_old.headI ≠ none then some .omitted
    else some .deleted
  else none

/-- Claim C3, counterexample. A content group with two old paths and no new
path (the same content stored twice in the old tree and absent from the new
one) is classified DUPLICATED by the code, while the spec's table
(`|old|+|new| > 2` needed for DUPLICATED, `|old|=1` needed for DELETED)
assigns it no category at all. -/
theorem C3_spec_table_counterexample :
    (Diffing.classify_step [] [] ⟨Diffing.defaultManifest, [], []⟩ 5
        ⟨["p", "q"], [], none⟩).map (fun r => r.2) =
      some Diffing.FileCat.duplicated ∧
    spec_classify [] [] 5 ⟨["p", "q"], [], none⟩ = none ∧
    some Diffing.FileCat.duplicated ≠ (none : Option Diffing.FileCat) := by
  refine ⟨rfl, rfl, by decide⟩

/-- Claim C3, amended. The classifier iterates content groups in hash-sorted
order (`files` is a `BTreeMap`, modelled as a sorted association list that
`insertGroup` keeps sorted) and assigns each category per the spec table with
the DUPLICATED condition corrected to `|old| > 1 ∨ |new| > 1 ∨ rename`.
The hypotheses: the group is non-empty (scan-reachable, cf. C10), and an
old-side map entry for the group's single new path never carries the group's
own hash (it would then be in the group's old side, which is empty). -/
theorem C3_classification_matches_amended_table
    (fpo fpn : List (String × ℕ)) (st : Diffing.BuildState) (hash : ℕ)
    (entry : Diffing.DiffingFileData)
    (hne : 1 ≤ entry.paths_old.length + entry.paths_new.length)
    (hcons : entry.paths_old = [] →
      Diffing.lookupPath fpo entry.paths_new.headI ≠ some hash) :
    (Diffing.classify_step fpo fpn st hash entry).map (fun r => r.2) =
      amended_table fpo fpn hash entry := by
  obtain ⟨po, pn, mime⟩ := entry
  simp only at hne hcons
  rcases po with _ | ⟨a, _ | ⟨a2, arest⟩⟩ <;> rcases pn with _ | ⟨b, _ | ⟨b2, brest⟩⟩
  · -- ([], [])
    simp at hne
  · -- ([], [b])
    cases hl : Diffing.lookupPath fpo b with
    | none =>
      simp [Diffing.classify_step, amended_table, hl]
    | some h' =>
      have hne' : h' ≠ hash := by
        intro heq
        exact (hcons rfl) (heq ▸ hl)
      simp [Diffing.classify_step, amended_table, hl, hne']
  · -- ([], b :: b2 :: brest)
    simp [Diffing.classify_step, amended_table]
  · -- ([a], [])
    by_cases hl : Diffing.lookupPath fpn a = none
    · simp [Diffing.classify_step, amended_table, hl]
    · simp [Diffing.classify_step, amended_table, hl]
  · -- ([a], [b])
    by_cases hab : a = b
    · subst hab
      simp [Diffing.classify_step, amended_table]
    · simp [Diffing.classify_step, amended_table, hab, Ne.symm hab]
  · -- ([a], b :: b2 :: brest)
    simp [Diffing.classify_step, amended_table]
  · -- (a :: a2 :: arest, [])
    simp [Diffing.classify_step, amended_table]
  · -- (a :: a2 :: arest, [b])
    simp [Diffing.classify_step, amended_table]
  · -- (a :: a2 :: arest, b :: b2 :: brest)
    simp [Diffing.classify_step, amended_table]

/-- Claim C3, witness for the amended theorem, at the rename group
`old = ["x"], new = ["y"]`: both the code and the amended table classify it
DUPLICATED. -/
theorem C3_classification_witness :
    (Diffing.classify_step [] [] ⟨Diffing.defaultManifest, [], []⟩ 5
        ⟨["x"], ["y"], none⟩).map (fun r => r.2) =
      amended_table [] [] 5 ⟨["x"], ["y"], none⟩ :=
  C3_classification_matches_amended_table [] [] ⟨Diffing.defaultManifest, [], []⟩ 5
    ⟨["x"], ["y"], none⟩ (by decide) (fun h => by simp [Diffing.lookupPath])

/-- Claim C5, code bug. The chunk count is `(L_old as f64 / CHUNK_SIZE).ceil()`
— which is `0`, not the claimed `1`, for an empty old stream; the ordinary
formula does hold away from zero (shown at `2^30` and `2^30 + 1`). -/
theorem C5_chunk_count_zero_for_empty_old :
    Zstddiff.calc_chunk_num 0 = 0 ∧
    Zstddiff.calc_chunk_num 0 ≠ 1 ∧
    Zstddiff.calc_chunk_num (2 ^ 30) = 1 ∧
    Zstddiff.calc_chunk_num (2 ^ 30 + 1) = 2 :=
  ⟨calc_chunk_num_zero, by rw [calc_chunk_num_zero]; decide,
    calc_chunk_num_pow30, calc_chunk_num_pow30_succ⟩

theorem diff_empty_old (comp : List ℕ → List ℕ → List ℕ) (new : List ℕ) :
    Zstddiff.diff comp [] new = be64 0 := by
  unfold Zstddiff.diff
  rw [List.length_nil, calc_chunk_num_f_zero]
  simp [Zstddiff.calc_chunks, Zstddiff.chunkSlices]

/-- Claim C1, code bug. Diffing against an empty old stream writes a chunk
count of zero and drops all of `new`: applying the resulting blob back to
the empty stream writes nothing and returns a byte count of 0, so
`apply(diff(old, new), old)` is `([], 0)`, not `new` with count `|new|`,
at `old = []`, `new = [0x2a]`. -/
theorem C1_roundtrip_fails_for_empty_old :
    Zstddiff.diff Zstddiff.idComp [] [42] = be64 0 ∧
    Zstddiff.apply Zstddiff.idDec [] (Zstddiff.diff Zstddiff.idComp [] [42]) 0 =
      some ([], 0) ∧
    (([] : List ℕ), (0 : ℕ)) ≠ ([42], 1) := by
  refine ⟨diff_empty_old _ _, ?_, by decide⟩
  rw [diff_empty_old]
  show Zstddiff.apply Zstddiff.idDec [] [0, 0, 0, 0, 0, 0, 0, 0] 0 = some ([], 0)
  unfold Zstddiff.apply
  rw [show readExact 8 [0, 0, 0, 0, 0, 0, 0, 0] =
      some ([0, 0, 0, 0, 0, 0, 0, 0], []) from rfl]
  simp only [Option.bind_eq_bind, Option.some_bind]
  rw [show beRead [0, 0, 0, 0, 0, 0, 0, 0] = 0 from rfl]
  rw [show ((0 : ℕ) : ℚ) = 0 from by norm_num, fl_zero]
  simp [Zstddiff.calc_chunks, Zstddiff.chunkSlices, Zstddiff.applyChunks]

/-- Claim C2, code bug. For a content group present only in the new tree under
two paths (`{a, b}` sharing hash 7), the builder emits
`DUPLICATED(idx = 0, old_paths = [])` — but the `0` is a slot in
`blobs_patch` (which receives the path `"a"`), while `blobs_new` stays empty
and the manifest carries no new-file entries, so `idx` designates no
new-file-blob slot; the apply engine then resolves `idx` against the
(empty) new-blob offsets and sources the remaining copies from
`old_paths[0]`, which does not exist. -/
theorem C2_duplicated_new_blob_mismatch :
    Diffing.scan_fold (fun _ => 7) [(true, "a"), (true, "b")] Diffing.initScan =
      some ⟨[(7, ⟨[], ["a", "b"], none⟩)], [], [("b", 7), ("a", 7)]⟩ ∧
    Diffing.generate_manifest ⟨[(7, ⟨[], ["a", "b"], none⟩)], [], [("b", 7), ("a", 7)]⟩ =
      some ⟨⟨[0, 0, 0, 0], [], [], [], [⟨7, 0, [], ["a", "b"]⟩], []⟩, [], ["a"]⟩ ∧
    Applying.dup_blob_lookup [] ⟨7, 0, [], ["a", "b"]⟩ = none ∧
    Applying.dup_copy_source ⟨7, 0, [], ["a", "b"]⟩ = none :=
  ⟨rfl, rfl, rfl, rfl⟩

/-- Claim C4, code bug. The duplicated task's old-path verification loop never
reports a hash mismatch: with a file whose hash is 999 against a stored hash
of 5 the code's check collects no error (the constructed error is discarded
by a stray semicolon), while the spec's described check collects one. -/
theorem C4_dup_hash_mismatch_not_reported :
    Applying.dup_check_errors (fun _ => some 999) ⟨5, U64_MAX, ["p"], ["q"]⟩ = [] ∧
    Applying.dup_check_errors_spec (fun _ => some 999) ⟨5, U64_MAX, ["p"], ["q"]⟩ =
      ["Old file p was not as expected."] ∧
    (999 : ℕ) ≠ 5 := by
  refine ⟨rfl, ?_, by decide⟩
  rfl

/-- Claim C6, counterexample. With `N = 14` chunks (arising from an old length
of `14·2^30`) over a side of length `L = 122`, chunk 7 starts at the
binary64 value `⌊7 · fl(122/14)⌋ = 60`, while the exact integer
`⌊7·122/14⌋ = 61`: the claimed equality with the exact floor fails. -/
theorem C6_chunk_start_counterexample :
    Zstddiff.calc_chunk_num (14 * 2 ^ 30) = 14 ∧
    (Zstddiff.calc_chunks (fl ((14 : ℕ) : ℚ)) (fl ((122 : ℕ) : ℚ)))[7]? = some 60 ∧
    7 * 122 / 14 = 61 ∧ (60 : ℕ) ≠ 61 := by
  refine ⟨calc_chunk_num_14, ?_, by norm_num, by norm_num⟩
  rw [calc_chunks_getElem 14 122 7 (by norm_num) (by norm_num) (by norm_num)]
  congr 1
  push_cast
  exact chunk_start_7_14_122

/-- Claim C6, amended. Both sides use the same `N` (the chunk list over any
side always has exactly `N` entries); the first chunk starts at offset 0;
for `N ≤ 2^53` and side lengths `L ≤ 2^51` every start offset is within one
of the exact `⌊i·L/N⌋` (it is computed in binary64 and can fall short of it,
cf. the counterexample); a file of exactly `2^30` bytes gives `N = 1` and one
byte more gives `N = 2`. -/
theorem C6_chunk_geometry (N L i : ℕ) (hN : 0 < N) (hN53 : N ≤ 2 ^ 53)
    (hL : L ≤ 2 ^ 51) (hi : i < N) :
    (Zstddiff.calc_chunks (fl (N : ℚ)) (fl (L : ℚ))).length = N ∧
    (Zstddiff.calc_chunks (fl (N : ℚ)) (fl (L : ℚ)))[0]? = some 0 ∧
    Zstddiff.calc_chunk_num (2 ^ 30) = 1 ∧
    Zstddiff.calc_chunk_num (2 ^ 30 + 1) = 2 ∧
    ∃ v, (Zstddiff.calc_chunks (fl (N : ℚ)) (fl (L : ℚ)))[i]? = some v ∧
      v ≤ i * L / N + 1 ∧ i * L / N ≤ v + 1 := by
  have hL53 : L ≤ 2 ^ 53 := le_trans hL (by norm_num)
  refine ⟨calc_chunks_length N L hN53, ?_, calc_chunk_num_pow30,
    calc_chunk_num_pow30_succ, ?_⟩
  · rw [calc_chunks_getElem N L 0 hN53 hL53 hN]
    rw [show ((0 : ℕ) : ℚ) = 0 from by norm_num, fl_zero, zero_mul, fl_zero]
    simp
  · exact ⟨_, calc_chunks_getElem N L i hN53 hL53 hi,
      (chunk_start_near_floor N L i hN hN53 hL hi).1,
      (chunk_start_near_floor N L i hN hN53 hL hi).2⟩

theorem readExact_append_of (n : ℕ) (a b : List ℕ) (h : a.length = n) :
    readExact n (a ++ b) = some (a, b) := by
  subst h
  exact readExact_append a b

theorem verify_and_read_ver_110 (t : List ℕ) :
    Manifest.verify_and_read_ver (MAGIC_BYTES ++ (VERSION_NUMBER_1_1_0 ++ t)) =
      some (VERSION_NUMBER_1_1_0, t) := by
  unfold Manifest.verify_and_read_ver
  rw [readExact_append_of 4 MAGIC_BYTES (VERSION_NUMBER_1_1_0 ++ t) rfl]
  dsimp only
  rw [if_pos rfl]
  rw [readExact_append_of 4 VERSION_NUMBER_1_1_0 t rfl]
  dsimp only
  rw [if_pos (show VERSION_NUMBER_1_1_0.headI = 0 from rfl), if_pos rfl]

theorem verify_and_read_ver_legacy (s : List ℕ) (h4 : 4 ≤ s.length)
    (hnz : s.headI ≠ 0) :
    Manifest.verify_and_read_ver (MAGIC_BYTES ++ s) =
      some (VERSION_NUMBER_1_0_0_R, s) := by
  have hne : s ≠ [] := by
    intro hnil
    rw [hnil] at h4
    simp at h4
  unfold Manifest.verify_and_read_ver
  rw [readExact_append_of 4 MAGIC_BYTES s rfl]
  dsimp only
  rw [if_pos rfl]
  rw [readExact, if_pos h4]
  dsimp only
  rw [headI_take_four s hne, if_neg hnz]

/-- Claim C8. The v1.0.0-r → v1.1.0 upgrader writes magic `FLDF`, tag
`[0,1,1,0]`, the 8-byte big-endian compressed-manifest length, the
compressed manifest bytes, and the remaining blob bytes verbatim; reading
the upgraded file then yields the same manifest and the same remaining blob
bytes as reading the original legacy file (so applying either gives the same
result). Hypotheses: the legacy manifest parses from `s` consuming `k ≤ |s|`
bytes with internal version `[1,0,0,'r']` and a non-zero first byte, the
compressor round-trips the manifest bytes, the parser is deterministic on
that prefix, and the compressed length fits in a `u64`. -/
theorem C8_upgrade_preserves_read {M : Type} (parse : List ℕ → Option (M × ℕ))
    (ver : M → List ℕ) (comp : List ℕ → List ℕ) (dec : List ℕ → Option (List ℕ))
    (s : List ℕ) (m : M) (k : ℕ)
    (hp : parse s = some (m, k)) (hk : k ≤ s.length)
    (hv : ver m = VERSION_NUMBER_1_0_0_R)
    (hnz : s.headI ≠ 0) (hs4 : 4 ≤ s.length)
    (hrt : dec (comp (s.take k)) = some (s.take k))
    (hpt : parse (s.take k) = some (m, k))
    (hlen : (comp (s.take k)).length < 2 ^ 64) :
    Upgrade.upgrade_100r_110 parse ver comp s =
      some (MAGIC_BYTES ++ VERSION_NUMBER_1_1_0 ++
        be64 (comp (s.take k)).length ++ comp (s.take k) ++ s.drop k) ∧
    Manifest.read_from parse ver dec
      (MAGIC_BYTES ++ VERSION_NUMBER_1_1_0 ++
        be64 (comp (s.take k)).length ++ comp (s.take k) ++ s.drop k) =
      some (m, s.drop k) ∧
    Manifest.read_from parse ver dec (MAGIC_BYTES ++ s) = some (m, s.drop k) := by
  refine ⟨?_, ?_, ?_⟩
  · unfold Upgrade.upgrade_100r_110
    rw [hp]
    dsimp only
    rw [if_pos hv]
  · unfold Manifest.read_from
    simp only [List.append_assoc]
    rw [verify_and_read_ver_110
      (be64 (comp (s.take k)).length ++ (comp (s.take k) ++ s.drop k))]
    simp only [Option.bind_eq_bind, Option.some_bind]
    rw [if_neg (show ¬VERSION_NUMBER_1_1_0 = VERSION_NUMBER_1_0_0_R from by decide)]
    unfold Manifest.read_110
    rw [readExact_append_of 8 (be64 (comp (s.take k)).length)
      (comp (s.take k) ++ s.drop k) (be64_length _)]
    simp only [Option.bind_eq_bind, Option.some_bind]
    rw [beRead_be64 _ hlen]
    rw [readExact_append_of (comp (s.take k)).length (comp (s.take k)) (s.drop k) rfl]
    simp only [Option.bind_eq_bind, Option.some_bind]
    rw [hrt]
    simp only [Option.bind_eq_bind, Option.some_bind]
    rw [hpt]
    rfl
  · unfold Manifest.read_from
    rw [verify_and_read_ver_legacy s hs4 hnz]
    simp only [Option.bind_eq_bind, Option.some_bind, if_true]
    unfold Manifest.read_100r
    rw [hp]
    dsimp only
    rw [if_pos hv]

/-- Claim C8, witness: a concrete legacy body `[1,0,0,114,9,9]` (4 manifest
bytes carrying the version, then two blob bytes), with a 4-byte parser, the
identity compressor and its decoder. -/
theorem C8_upgrade_preserves_read_witness :
    Upgrade.upgrade_100r_110 (M := List ℕ) (fun l => some (l.take 4, 4)) id
      (fun l => l) [1, 0, 0, 114, 9, 9] =
      some (MAGIC_BYTES ++ VERSION_NUMBER_1_1_0 ++
        be64 ((fun (l : List ℕ) => l) ([1, 0, 0, 114, 9, 9].take 4)).length ++
        (fun (l : List ℕ) => l) ([1, 0, 0, 114, 9, 9].take 4) ++
        [1, 0, 0, 114, 9, 9].drop 4) ∧
    Manifest.read_from (M := List ℕ) (fun l => some (l.take 4, 4)) id some
      (MAGIC_BYTES ++ VERSION_NUMBER_1_1_0 ++
        be64 ((fun (l : List ℕ) => l) ([1, 0, 0, 114, 9, 9].take 4)).length ++
        (fun (l : List ℕ) => l) ([1, 0, 0, 114, 9, 9].take 4) ++
        [1, 0, 0, 114, 9, 9].drop 4) =
      some ([1, 0, 0, 114], [1, 0, 0, 114, 9, 9].drop 4) ∧
    Manifest.read_from (M := List ℕ) (fun l => some (l.take 4, 4)) id some
      (MAGIC_BYTES ++ [1, 0, 0, 114, 9, 9]) =
      some ([1, 0, 0, 114], [1, 0, 0, 114, 9, 9].drop 4) :=
  C8_upgrade_preserves_read (M := List ℕ) (fun l => some (l.take 4, 4)) id
    (fun l => l) some [1, 0, 0, 114, 9, 9] [1, 0, 0, 114] 4
    rfl (by decide) rfl (by decide) (by decide) rfl rfl (by decide)

/-- Claim C6, witness for the amended theorem, at `N = 2`, `L = 2`, `i = 1`. -/
theorem C6_chunk_geometry_witness :
    (Zstddiff.calc_chunks (fl ((2 : ℕ) : ℚ)) (fl ((2 : ℕ) : ℚ))).length = 2 ∧
    (Zstddiff.calc_chunks (fl ((2 : ℕ) : ℚ)) (fl ((2 : ℕ) : ℚ)))[0]? = some 0 ∧
    Zstddiff.calc_chunk_num (2 ^ 30) = 1 ∧
    Zstddiff.calc_chunk_num (2 ^ 30 + 1) = 2 ∧
    ∃ v, (Zstddiff.calc_chunks (fl ((2 : ℕ) : ℚ)) (fl ((2 : ℕ) : ℚ)))[1]? = some v ∧
      v ≤ 1 * 2 / 2 + 1 ∧ 1 * 2 / 2 ≤ v + 1 :=
  C6_chunk_geometry 2 2 1 (by norm_num) (by norm_num) (by norm_num) (by norm_num)

/-- Claim C9, counterexample. The claim says a single collected error is
reported unadorned, but `aggregate_errors!` prefixes
`"Failed with multiple errors:"` even for one error: on the singleton list
`["boom"]` the code produces the prefixed message while the spec's described
behaviour produces the bare `"boom"`, and the two differ. -/
theorem C9_counterexample :
    aggregate_errors ["boom"] = some ("Failed with multiple errors:\nboom") ∧
    aggregate_errors_spec ["boom"] = some "boom" ∧
    ("Failed with multiple errors:\nboom" : String) ≠ "boom" := by
  refine ⟨rfl, rfl, ?_⟩
  decide

theorem joinNL_single (e : String) : joinNL [e] = e := rfl

theorem joinNL_cons_cons (x y : String) (t : List String) :
    joinNL (x :: y :: t) = x ++ "\n" ++ joinNL (y :: t) := rfl

theorem joinNL_split (e : String) : ∀ (errs : List String), e ∈ errs →
    ∃ a b, joinNL errs = a ++ e ++ b := by
  intro errs
  induction errs with
  | nil => intro h; exact absurd h (List.not_mem_nil e)
  | cons x rest ih =>
    intro hmem
    rcases List.mem_cons.mp hmem with hx | hrest
    · cases rest with
      | nil =>
        refine ⟨"", "", ?_⟩
        rw [joinNL_single, ← hx]
        simp
      | cons y t =>
        refine ⟨"", "\n" ++ joinNL (y :: t), ?_⟩
        rw [joinNL_cons_cons, ← hx]
        simp [String.append_assoc]
    · cases rest with
      | nil => exact absurd hrest (List.not_mem_nil e)
      | cons y t =>
        obtain ⟨a, b, hab⟩ := ih hrest
        refine ⟨x ++ "\n" ++ a, b, ?_⟩
        rw [joinNL_cons_cons, hab]
        simp [String.append_assoc]

/-- Claim C9, amended. Whenever worker errors are aggregated after all workers
join, a non-empty error list causes the operation to fail with a message
containing every individual error; the message is always prefixed
`"Failed with multiple errors:"`, including when exactly one error was
collected. -/
theorem C9_aggregate_all_errors (errs : List String) :
    (aggregate_errors errs = none ↔ errs = []) ∧
    (∀ msg, aggregate_errors errs = some msg →
      (∃ t, msg = "Failed with multiple errors:\n" ++ t) ∧
      ∀ e ∈ errs, ∃ a b, msg = a ++ e ++ b) := by
  constructor
  · unfold aggregate_errors
    constructor
    · intro h
      by_cases he : errs.isEmpty
      · exact List.isEmpty_iff.mp he
      · rw [if_neg he] at h
        exact absurd h (by simp)
    · intro h
      subst h
      rfl
  · intro msg hmsg
    unfold aggregate_errors at hmsg
    by_cases he : errs.isEmpty
    · rw [if_pos he] at hmsg
      exact absurd hmsg (by simp)
    · rw [if_neg he] at hmsg
      simp only [Option.some.injEq] at hmsg
      subst hmsg
      refine ⟨⟨joinNL errs, rfl⟩, ?_⟩
      intro e hmem
      obtain ⟨a, b, hab⟩ := joinNL_split e errs hmem
      refine ⟨"Failed with multiple errors:\n" ++ a, b, ?_⟩
      rw [hab]
      simp [String.append_assoc]

/-- Claim C9, witness for the amended theorem, at the singleton list `["x"]`:
the message is the prefixed one and contains `"x"`. -/
theorem C9_aggregate_all_errors_witness :
    (∃ t, ("Failed with multiple errors:\nx" : String) =
      "Failed with multiple errors:\n" ++ t) ∧
    ∀ e ∈ ["x"], ∃ a b, ("Failed with multiple errors:\nx" : String) = a ++ e ++ b :=
  (C9_aggregate_all_errors ["x"]).2 "Failed with multiple errors:\nx" rfl

/-- Claim C7. When reading a diff file: after the magic `FLDF` is matched, a
version tag starting with byte `0x00` is accepted only if it is exactly
`[0,1,1,0]`; a non-zero first byte makes the reader rewind 4 bytes and parse
a raw msgpack manifest from there, accepted only with internal version
`[1,0,0,'r']`; any other magic or version fails. Stated as: every successful
`read_from` run satisfies these conditions. -/
theorem C7_version_gate {M : Type} (parse : List ℕ → Option (M × ℕ)) (ver : M → List ℕ)
    (dec : List ℕ → Option (List ℕ)) (s : List ℕ) (m : M) (rest : List ℕ)
    (h : Manifest.read_from parse ver dec s = some (m, rest)) :
    s.take 4 = MAGIC_BYTES ∧
    ((s.drop 4).headI = 0 → (s.drop 4).take 4 = VERSION_NUMBER_1_1_0) ∧
    ((s.drop 4).headI ≠ 0 →
      ∃ k, parse (s.drop 4) = some (m, k) ∧ ver m = VERSION_NUMBER_1_0_0_R ∧
        rest = (s.drop 4).drop k) := by
  unfold Manifest.read_from at h
  cases hvv : Manifest.verify_and_read_ver s with
  | none =>
    rw [hvv] at h
    exact absurd h (by simp)
  | some p =>
    obtain ⟨v, s1⟩ := p
    rw [hvv] at h
    simp only [Option.bind_eq_bind, Option.some_bind] at h
    obtain ⟨hmagic, hlen, hbranch⟩ := verify_and_read_ver_some s v s1 hvv
    rcases hbranch with ⟨hz, hv110, htake, hs1⟩ | ⟨hz, hv100, hs1⟩
    · refine ⟨hmagic, fun _ => htake, fun hcon => absurd hz hcon⟩
    · refine ⟨hmagic, fun hcon => absurd hcon hz, fun _ => ?_⟩
      rw [hv100] at h
      rw [if_pos rfl] at h
      unfold Manifest.read_100r at h
      subst hs1
      cases hp : parse (s.drop 4) with
      | none =>
        rw [hp] at h
        exact absurd h (by simp)
      | some q =>
        obtain ⟨m', k⟩ := q
        rw [hp] at h
        dsimp only at h
        by_cases hver : ver m' = VERSION_NUMBER_1_0_0_R
        · rw [if_pos hver] at h
          simp only [Option.some.injEq, Prod.mk.injEq] at h
          obtain ⟨hm, hr⟩ := h
          subst hm
          exact ⟨k, rfl, hver, hr.symm⟩
        · rw [if_neg hver] at h
          exact absurd h (by simp)

/-- Claim C7, witness: a concrete legacy-format stream (magic followed by a raw
manifest whose first four bytes are the internal version `[1,0,0,'r']`),
read with a parser that consumes those four bytes. -/
theorem C7_version_gate_witness :
    (MAGIC_BYTES ++ VERSION_NUMBER_1_0_0_R).take 4 = MAGIC_BYTES ∧
    (((MAGIC_BYTES ++ VERSION_NUMBER_1_0_0_R).drop 4).headI = 0 →
      ((MAGIC_BYTES ++ VERSION_NUMBER_1_0_0_R).drop 4).take 4 = VERSION_NUMBER_1_1_0) ∧
    (((MAGIC_BYTES ++ VERSION_NUMBER_1_0_0_R).drop 4).headI ≠ 0 →
      ∃ k, (fun (l : List ℕ) => some (l.take 4, 4)) ((MAGIC_BYTES ++ VERSION_NUMBER_1_0_0_R).drop 4) =
          some (VERSION_NUMBER_1_0_0_R, k) ∧
        id VERSION_NUMBER_1_0_0_R = VERSION_NUMBER_1_0_0_R ∧
        ([] : List ℕ) = (((MAGIC_BYTES ++ VERSION_NUMBER_1_0_0_R).drop 4)).drop k) :=
  C7_version_gate (M := List ℕ) (fun l => some (l.take 4, 4)) id (fun _ => none)
    (MAGIC_BYTES ++ VERSION_NUMBER_1_0_0_R) VERSION_NUMBER_1_0_0_R [] (by decide)

end Foldiff
